import Mathlib

/-!
Verification of the hash core of NiallsCPP11Utilities (Int128_256.cpp).

The development embeds, from the source file `Int128_256.cpp`:
  * `Hash256.AddSHA256To` (the single-message SHA-256 path),
  * `Hash256.BatchAddSHA256To` (the 4-lane batched SHA-256 scheduler),
  * `FillRandom` and the `Int128`/`Int256` random-fill entry points,
  * `Hash128.AddFastHashTo` / `Hash256.AddFastHashTo` (the fast-hash combiner).

Code pulled in by the source from headers that are not part of the sources at
hand (the SHA-256 compression routine `__sha256_osol`, the comparison
operators and hex rendering of `Int128`/`Int256`, SpookyHash and CityHash) is
modelled from the specification, as marked on each such definition.

Machine integers are embedded as `Nat` with explicit reduction modulo
`2 ^ 32` (for the 32-bit hash words) and `2 ^ 64` (for `size_t`).
-/

set_option maxRecDepth 100000

/-- The modulus of 32-bit words. -/
def M32 : Nat := 4294967296

/-- The modulus of `size_t` values (64-bit). -/
def SZ : Nat := 18446744073709551616

/-- Right rotation of a 32-bit word, as used by the SHA-256 round functions. -/
def rotr32 (x n : Nat) : Nat := (x >>> n ||| x <<< (32 - n)) % M32

/-- Modelled from the spec: SHA-256 `Ch` function, per the FIPS 180-4
specification referenced by the spec for the compression routine. 32-bit
complement of `e` is taken as xor with `2 ^ 32 - 1`. -/
def shaCh (e f g : Nat) : Nat := (e &&& f) ^^^ ((e ^^^ 4294967295) &&& g)

/-- Modelled from the spec: SHA-256 `Maj` function per FIPS 180-4. -/
def shaMaj (a b c : Nat) : Nat := (a &&& b) ^^^ (a &&& c) ^^^ (b &&& c)

/-- Modelled from the spec: SHA-256 big sigma-0 per FIPS 180-4. -/
def bigSigma0 (x : Nat) : Nat := rotr32 x 2 ^^^ rotr32 x 13 ^^^ rotr32 x 22

/-- Modelled from the spec: SHA-256 big sigma-1 per FIPS 180-4. -/
def bigSigma1 (x : Nat) : Nat := rotr32 x 6 ^^^ rotr32 x 11 ^^^ rotr32 x 25

/-- Modelled from the spec: SHA-256 small sigma-0 per FIPS 180-4. -/
def smallSigma0 (x : Nat) : Nat := rotr32 x 7 ^^^ rotr32 x 18 ^^^ (x >>> 3)

/-- Modelled from the spec: SHA-256 small sigma-1 per FIPS 180-4. -/
def smallSigma1 (x : Nat) : Nat := rotr32 x 17 ^^^ rotr32 x 19 ^^^ (x >>> 10)

/-- Modelled from the spec: the 64 SHA-256 round constants of FIPS 180-4. -/
def shaK : List Nat :=
  [1116352408, 1899447441, 3049323471, 3921009573, 961987163,
   1508970993, 2453635748, 2870763221, 3624381080, 310598401,
   607225278, 1426881987, 1925078388, 2162078206, 2614888103,
   3248222580, 3835390401, 4022224774, 264347078, 604807628,
   770255983, 1249150122, 1555081692, 1996064986, 2554220882,
   2821834349, 2952996808, 3210313671, 3336571891, 3584528711,
   113926993, 338241895, 666307205, 773529912, 1294757372,
   1396182291, 1695183700, 1986661051, 2177026350, 2456956037,
   2730485921, 2820302411, 3259730800, 3345764771, 3516065817,
   3600352804, 4094571909, 275423344, 430227734, 506948616,
   659060556, 883997877, 958139571, 1322822218, 1537002063,
   1747873779, 1955562222, 2024104815, 2227730452, 2361852424,
   2428436474, 2756734187, 3204031479, 3329325298]

/-- Modelled from the spec: load the 16 initial 32-bit message-schedule words
from a 64-byte block, big-endian, per FIPS 180-4. -/
def wordsOfBlock (block : List Nat) : List Nat :=
  (List.range 16).map (fun i =>
    block.getD (4 * i) 0 * 16777216 + block.getD (4 * i + 1) 0 * 65536 +
    block.getD (4 * i + 2) 0 * 256 + block.getD (4 * i + 3) 0)

/-- Modelled from the spec: extend the message schedule by `n` further words
per FIPS 180-4 (`W t = s1 (W (t-2)) + W (t-7) + s0 (W (t-15)) + W (t-16)`). -/
def wExtend (acc : List Nat) : Nat → List Nat
  | 0 => acc
  | n + 1 =>
      wExtend (acc ++ [(smallSigma1 (acc.getD (acc.length - 2) 0) +
        acc.getD (acc.length - 7) 0 + smallSigma0 (acc.getD (acc.length - 15) 0) +
        acc.getD (acc.length - 16) 0) % M32]) n

/-- Modelled from the spec: one SHA-256 round on the working variables
`[a,b,c,d,e,f,g,h]`, with round constant `k` and schedule word `w`. -/
def shaRound (st : List Nat) (kw : Nat × Nat) : List Nat :=
  let a := st.getD 0 0
  let b := st.getD 1 0
  let c := st.getD 2 0
  let d := st.getD 3 0
  let e := st.getD 4 0
  let f := st.getD 5 0
  let g := st.getD 6 0
  let h := st.getD 7 0
  let t1 := (h + bigSigma1 e + shaCh e f g + kw.1 + kw.2) % M32
  let t2 := (bigSigma0 a + shaMaj a b c) % M32
  [(t1 + t2) % M32, a, b, c, (d + t1) % M32, e, f, g]

/-- Modelled from the spec: the SHA-256 compression function `__sha256_osol`
(declared in `hashes/sha256/sha256-ref.c`, which the source textually
includes but which is not among the sources at hand). It folds one 64-byte
block into a running state of eight 32-bit words, bit-exactly per the FIPS
180-4 specification that the spec designates for it. -/
def sha256_osol (block : List Nat) (hash : List Nat) : List Nat :=
  let w := wExtend (wordsOfBlock block) 48
  let final := (shaK.zip w).foldl shaRound hash
  (hash.zip final).map (fun p => (p.1 + p.2) % M32)

/-- Modelled from the spec: the initial SHA-256 hash state of FIPS 180-4. -/
def shaIV : List Nat :=
  [1779033703, 3144134277, 1013904242, 2773480762, 1359893119,
   2600822924, 528734635, 1541459225]

/-- The all-zero 256-bit state: the spec's default-constructed ("null")
value of a 256-bit `FixedWidthValue`. -/
def zeroState256 : List Nat := List.replicate 8 0

/-- Lower-case hex digit of a value below 16. -/
def hexChar (n : Nat) : Char := if n < 10 then Char.ofNat (48 + n) else Char.ofNat (87 + n)

/-- Two lower-case hex digits of one byte. -/
def byteToHex (b : Nat) : List Char := [hexChar (b / 16), hexChar (b % 16)]

/-- The four bytes of a 32-bit word, most significant first. -/
def wordBytesBE (w : Nat) : List Nat :=
  [w / 16777216 % 256, w / 65536 % 256, w / 256 % 256, w % 256]

/-- The four bytes of a 32-bit word, least significant first. -/
def wordBytesLE (w : Nat) : List Nat :=
  [w % 256, w / 256 % 256, w / 65536 % 256, w / 16777216 % 256]

/-- Modelled from the spec: `asHexString` of a 256-bit value held as eight
32-bit words, rendering the stored bytes in order with each word stored
big-endian. `Int128_256.hpp` is not among the sources at hand, so both
per-word byte orders are provided. -/
def asHexStringBE (st : List Nat) : String :=
  String.mk ((st.map wordBytesBE).flatten.map byteToHex).flatten

/-- Modelled from the spec: `asHexString` of a 256-bit value held as eight
32-bit words with each word stored little-endian (the host order of the
reference platform). -/
def asHexStringLE (st : List Nat) : String :=
  String.mk ((st.map wordBytesLE).flatten.map byteToHex).flatten

/-- `Hash256.AddSHA256To`, block loop: the source walks `no` full 64-byte
blocks, feeding each through `__sha256_osol` and advancing the block
pointer; the final pointer position is returned with the state. -/
def sha256_add_blocks (st : List Nat) (rest : List Nat) : Nat → List Nat × List Nat
  | 0 => (st, rest)
  | n + 1 => sha256_add_blocks (sha256_osol (rest.take 64) st) (rest.drop 64) n

/-- `Hash256.AddSHA256To` from `Int128_256.cpp`: splits `data` into
`no = length / 64` full blocks fed sequentially through the compression
function; if `remaining = length - no * 64` is nonzero, a zeroed temporary
block receives the remaining bytes (`memset` then `memcpy`) and is
compressed as well. -/
def Hash256.AddSHA256To (st : List Nat) (data : List Nat) : List Nat :=
  let no := data.length / 64
  let remaining := data.length - no * 64
  let p := sha256_add_blocks st data no
  if remaining = 0 then p.1
  else sha256_osol (p.2.take remaining ++ List.replicate (64 - remaining) 0) p.1

/-- The standard FIPS 180-4 padding block of the empty message: `0x80`
followed by zeros with a zero bit length in the final eight bytes. -/
def stdPadEmptyBlock : List Nat := 128 :: List.replicate 63 0

/-- Model validation: the FIPS-modelled compression function, applied to the
standard padding block of the empty message from the standard initial state,
reproduces the published SHA-256 digest of the empty string exactly. -/
theorem sha256_model_matches_fips_empty :
    asHexStringBE (sha256_osol stdPadEmptyBlock shaIV) =
      "e3b0c44298fc1c149afbf4c8996fb92427ae41e4649b934ca495991b7852b855" := by
  decide

/-- The 43 ASCII bytes of "The quick brown fox jumps over the lazy dog". -/
def foxMsg : List Nat :=
  "The quick brown fox jumps over the lazy dog".toList.map Char.toNat

/-- The standard FIPS 180-4 padded block of the 43-byte fox message:
message bytes, `0x80`, zeros, then the bit length 344 in the final eight
bytes. -/
def stdPadFoxBlock : List Nat :=
  foxMsg ++ [128] ++ List.replicate 12 0 ++ [0, 0, 0, 0, 0, 0, 1, 88]

/-- Model validation: the FIPS-modelled compression function, applied to the
standard padded block of the fox message from the standard initial state,
reproduces the published SHA-256 digest of that message exactly. -/
theorem sha256_model_matches_fips_fox :
    asHexStringBE (sha256_osol stdPadFoxBlock shaIV) =
      "d7a8fbb307d7809469ca9abcb0082e4f8d5651e46d3cdb762d02d0bf37c9e592" := by
  decide

/-- The published SHA-256 digest of the empty string, as eight big-endian
32-bit words: the only 256-bit state whose byte content renders as the
expected empty-string digest. -/
def emptyDigestState : List Nat :=
  [3820012610, 2566659092, 2600203464, 2574235940, 665731556,
   1687917388, 2761267483, 2018687061]

/-- C7: for every destination state, `Hash256.AddSHA256To` with a
zero-length message computes `no = 0` blocks and `remaining = 0`, so no
compression block is processed and the destination is returned exactly as it
was before the call. -/
theorem C7_zero_length_leaves_state_unchanged (st : List Nat) :
    Hash256.AddSHA256To st [] = st := by
  simp [Hash256.AddSHA256To, sha256_add_blocks]

/-- C4: hashing the empty input through `Hash256.AddSHA256To` leaves the
destination state untouched, and neither the all-zero default state nor the
standard SHA-256 initial state renders (in either per-word byte order) as the
expected empty-string digest `e3b0c4...`; the digest asserted by the
repository's own `SHA256/works` test case is therefore not produced. -/
theorem C4_empty_input_digest_is_not_e3b0 :
    Hash256.AddSHA256To zeroState256 [] = zeroState256 ∧
    Hash256.AddSHA256To shaIV [] = shaIV ∧
    asHexStringBE zeroState256 ≠
      "e3b0c44298fc1c149afbf4c8996fb92427ae41e4649b934ca495991b7852b855" ∧
    asHexStringLE zeroState256 ≠
      "e3b0c44298fc1c149afbf4c8996fb92427ae41e4649b934ca495991b7852b855" ∧
    asHexStringBE shaIV ≠
      "e3b0c44298fc1c149afbf4c8996fb92427ae41e4649b934ca495991b7852b855" ∧
    asHexStringLE shaIV ≠
      "e3b0c44298fc1c149afbf4c8996fb92427ae41e4649b934ca495991b7852b855" := by
  refine ⟨?_, ?_, ?_, ?_, ?_, ?_⟩ <;> decide

/-- C5: hashing the 43-byte fox message through `Hash256.AddSHA256To`
compresses a single zero-padded block (no `0x80` marker, no length field), so
starting from the all-zero default state, from the standard SHA-256 initial
state, or even from the state whose bytes spell the empty-string digest, the
rendered digest (in either per-word byte order) differs from the digest
`d7a8fb...` asserted by the repository's own `SHA256/works` test case. -/
theorem C5_fox_digest_is_not_standard :
    asHexStringBE (Hash256.AddSHA256To zeroState256 foxMsg) ≠
      "d7a8fbb307d7809469ca9abcb0082e4f8d5651e46d3cdb762d02d0bf37c9e592" ∧
    asHexStringLE (Hash256.AddSHA256To zeroState256 foxMsg) ≠
      "d7a8fbb307d7809469ca9abcb0082e4f8d5651e46d3cdb762d02d0bf37c9e592" ∧
    asHexStringBE (Hash256.AddSHA256To shaIV foxMsg) ≠
      "d7a8fbb307d7809469ca9abcb0082e4f8d5651e46d3cdb762d02d0bf37c9e592" ∧
    asHexStringLE (Hash256.AddSHA256To shaIV foxMsg) ≠
      "d7a8fbb307d7809469ca9abcb0082e4f8d5651e46d3cdb762d02d0bf37c9e592" ∧
    asHexStringBE (Hash256.AddSHA256To emptyDigestState foxMsg) ≠
      "d7a8fbb307d7809469ca9abcb0082e4f8d5651e46d3cdb762d02d0bf37c9e592" ∧
    asHexStringLE (Hash256.AddSHA256To emptyDigestState foxMsg) ≠
      "d7a8fbb307d7809469ca9abcb0082e4f8d5651e46d3cdb762d02d0bf37c9e592" := by
  refine ⟨?_, ?_, ?_, ?_, ?_, ?_⟩ <;> decide

/-- Stated from the spec's words for the refinement claim C3: hashOne "pads
the final block (if any) with zero bytes up to 64 bytes ... feeds each
64-byte block through the compression function sequentially": the message is
zero-padded to the next multiple of 64 bytes. -/
def padZero (msg : List Nat) : List Nat :=
  msg ++ List.replicate ((64 - msg.length % 64) % 64) 0

/-- Split a byte list into consecutive 64-byte chunks. -/
def chunks64 (l : List Nat) : List (List Nat) :=
  if h : l = [] then [] else l.take 64 :: chunks64 (l.drop 64)
termination_by l.length
decreasing_by
  simp only [List.length_drop]
  have hl : l.length ≠ 0 := fun hc => h (List.length_eq_zero.mp hc)
  omega

/-- Stated from the spec's words for the refinement claim C3: the digest is
the fold of the compression function over the consecutive 64-byte blocks of
the zero-padded message. -/
def hashOneSpec (st : List Nat) (msg : List Nat) : List Nat :=
  (chunks64 (padZero msg)).foldl (fun s b => sha256_osol b s) st

theorem chunks64_nil : chunks64 [] = [] := by
  rw [chunks64]
  simp

theorem chunks64_of_ne (l : List Nat) (h : l ≠ []) :
    chunks64 l = l.take 64 :: chunks64 (l.drop 64) := by
  rw [chunks64]
  simp [h]

/-- Peeling one full block off the source's `AddSHA256To` loop. -/
theorem AddSHA256To_peel (st : List Nat) (msg : List Nat) (h : 64 ≤ msg.length) :
    Hash256.AddSHA256To st msg =
      Hash256.AddSHA256To (sha256_osol (msg.take 64) st) (msg.drop 64) := by
  have hd : (msg.drop 64).length = msg.length - 64 := by simp [List.length_drop]
  simp only [Hash256.AddSHA256To, hd]
  have h1 : msg.length / 64 = (msg.length - 64) / 64 + 1 := by omega
  rw [h1]
  have h2 : msg.length - ((msg.length - 64) / 64 + 1) * 64
      = msg.length - 64 - ((msg.length - 64) / 64) * 64 := by
    have := Nat.div_mul_le_self (msg.length - 64) 64
    omega
  rw [h2]
  rfl

/-- Peeling one full block off the spec-side pad-then-chunk fold. -/
theorem hashOneSpec_peel (st : List Nat) (msg : List Nat) (h : 64 ≤ msg.length) :
    hashOneSpec st msg = hashOneSpec (sha256_osol (msg.take 64) st) (msg.drop 64) := by
  unfold hashOneSpec
  have hz : (64 - (msg.drop 64).length % 64) % 64 = (64 - msg.length % 64) % 64 := by
    simp only [List.length_drop]
    omega
  have hne : padZero msg ≠ [] := by
    unfold padZero
    intro hc
    have hlc := congrArg List.length hc
    simp only [List.length_append, List.length_replicate, List.length_nil] at hlc
    omega
  rw [chunks64_of_ne _ hne]
  have hts : 64 - msg.length = 0 := by omega
  have ht : (padZero msg).take 64 = msg.take 64 := by
    unfold padZero
    rw [List.take_append_eq_append_take, hts]
    simp
  have hdp : (padZero msg).drop 64 = padZero (msg.drop 64) := by
    unfold padZero
    rw [List.drop_append_eq_append_drop, hts]
    simp only [List.drop_zero, hz]
  rw [ht, hdp]
  simp only [List.foldl_cons]

/-- C3, auxiliary induction on a length bound. -/
theorem AddSHA256To_eq_spec_aux :
    ∀ (n : Nat) (msg : List Nat), msg.length ≤ n →
      ∀ st, Hash256.AddSHA256To st msg = hashOneSpec st msg := by
  intro n
  induction n with
  | zero =>
    intro msg hm st
    have : msg = [] := List.length_eq_zero.mp (Nat.le_zero.mp hm)
    subst this
    simp [Hash256.AddSHA256To, sha256_add_blocks, hashOneSpec, padZero, chunks64_nil]
  | succ n ih =>
    intro msg hm st
    by_cases h64 : 64 ≤ msg.length
    · rw [AddSHA256To_peel st msg h64, hashOneSpec_peel st msg h64]
      exact ih (msg.drop 64) (by simp only [List.length_drop]; omega) _
    · push_neg at h64
      by_cases h0 : msg.length = 0
      · have : msg = [] := List.length_eq_zero.mp h0
        subst this
        simp [Hash256.AddSHA256To, sha256_add_blocks, hashOneSpec, padZero, chunks64_nil]
      · -- a single final block, shorter than 64 bytes, zero-padded
        have hdiv : msg.length / 64 = 0 := Nat.div_eq_of_lt h64
        have hrem : msg.length - msg.length / 64 * 64 = msg.length := by omega
        have hmod : msg.length % 64 = msg.length := Nat.mod_eq_of_lt h64
        have hcnt : (64 - msg.length % 64) % 64 = 64 - msg.length := by omega
        have hlhs : Hash256.AddSHA256To st msg =
            sha256_osol (msg ++ List.replicate (64 - msg.length) 0) st := by
          simp only [Hash256.AddSHA256To, hdiv, Nat.zero_mul, Nat.sub_zero,
            sha256_add_blocks]
          rw [if_neg h0]
          rw [List.take_length]
        have hpadlen : (padZero msg).length = 64 := by
          simp only [padZero, List.length_append, List.length_replicate, hcnt]
          omega
        have hne : padZero msg ≠ [] := by
          intro hc
          rw [hc] at hpadlen
          simp at hpadlen
        have hrhs : hashOneSpec st msg =
            sha256_osol (msg ++ List.replicate (64 - msg.length) 0) st := by
          unfold hashOneSpec
          rw [chunks64_of_ne _ hne]
          have h1 : (padZero msg).take 64 = padZero msg :=
            List.take_of_length_le (by omega)
          have h2 : (padZero msg).drop 64 = [] :=
            List.drop_eq_nil_of_le (by omega)
          rw [h1, h2, chunks64_nil]
          simp only [List.foldl_cons, List.foldl_nil]
          unfold padZero
          rw [hcnt]
        rw [hlhs, hrhs]

/-- C3: for every state and message, the source's `AddSHA256To` equals the
spec's description: split the zero-padded message into consecutive 64-byte
blocks and fold them sequentially through the compression function. No
length-and-1-bit suffix is ever appended: the padding adds strictly fewer
than 64 zero bytes and, when the message length is a block multiple, adds
nothing at all. -/
theorem C3_AddSHA256To_zero_pads_and_folds (st : List Nat) (msg : List Nat) :
    Hash256.AddSHA256To st msg = hashOneSpec st msg ∧
    padZero msg = msg ++ List.replicate ((64 - msg.length % 64) % 64) 0 ∧
    (64 - msg.length % 64) % 64 < 64 ∧
    (msg.length % 64 = 0 → padZero msg = msg) := by
  refine ⟨AddSHA256To_eq_spec_aux msg.length msg le_rfl st, rfl, by omega, ?_⟩
  intro h
  simp [padZero, h]

/-- Witness for C3's final conjunct at a one-block message, where the
zero-padding adds nothing. -/
theorem C3_witness :
    Hash256.AddSHA256To zeroState256 (List.replicate 64 5) =
      hashOneSpec zeroState256 (List.replicate 64 5) ∧
    padZero (List.replicate 64 5) = List.replicate 64 5 :=
  ⟨(C3_AddSHA256To_zero_pads_and_folds zeroState256 (List.replicate 64 5)).1,
   (C3_AddSHA256To_zero_pads_and_folds zeroState256 (List.replicate 64 5)).2.2.2 (by decide)⟩

/-- Modelled from the spec: the numeric value of a `FixedWidthValue`'s byte
array read as a big-endian unsigned integer (most-significant stored byte
first). The comparison operators of `Int128`/`Int256` live in
`Int128_256.hpp`, which is not among the sources at hand. -/
def beNat (bs : List Nat) : Nat := bs.foldl (fun a b => a * 256 + b) 0

/-- Modelled from the spec: raw byte-wise unsigned comparison of two stored
byte arrays, first byte first, as `memcmp` performs it in the repository's
`Int128/works` and `Int256/works` test cases. -/
def memcmpOrd : List Nat → List Nat → Ordering
  | [], [] => Ordering.eq
  | [], _ :: _ => Ordering.lt
  | _ :: _, [] => Ordering.gt
  | x :: xs, y :: ys =>
      if x < y then Ordering.lt else if y < x then Ordering.gt else memcmpOrd xs ys

/-- The byte array of `_hash1` in the repository's `Int128/works` test:
sixteen zero bytes with byte 5 set to 78. -/
def testHash1 : List Nat := [0, 0, 0, 0, 0, 78, 0, 0, 0, 0, 0, 0, 0, 0, 0, 0]

/-- The byte array of `_hash2` in the repository's `Int128/works` test:
sixteen zero bytes with byte 15 set to 1. -/
def testHash2 : List Nat := [0, 0, 0, 0, 0, 0, 0, 0, 0, 0, 0, 0, 0, 0, 0, 1]

theorem beNat_foldl (l : List Nat) :
    ∀ a, l.foldl (fun a b => a * 256 + b) a = a * 256 ^ l.length + beNat l := by
  induction l with
  | nil => intro a; simp [beNat]
  | cons b bs ih =>
    intro a
    simp only [List.foldl_cons, List.length_cons, beNat]
    rw [ih (a * 256 + b), ih (0 * 256 + b)]
    ring

theorem beNat_cons (b : Nat) (bs : List Nat) :
    beNat (b :: bs) = b * 256 ^ bs.length + beNat bs := by
  have h := beNat_foldl bs (0 * 256 + b)
  simp only [beNat, List.foldl_cons] at h ⊢
  rw [h]
  ring

theorem beNat_lt_pow (l : List Nat) (hb : ∀ b ∈ l, b < 256) :
    beNat l < 256 ^ l.length := by
  induction l with
  | nil => simp [beNat]
  | cons b bs ih =>
    have hb1 : b < 256 := hb b (List.mem_cons_self b bs)
    have hbs : ∀ x ∈ bs, x < 256 := fun x hx => hb x (List.mem_cons_of_mem b hx)
    have htail := ih hbs
    rw [beNat_cons]
    simp only [List.length_cons]
    have h3 : (256 : Nat) ^ (bs.length + 1) = 256 * 256 ^ bs.length := by ring
    rw [h3]
    have hpos : 0 < (256 : Nat) ^ bs.length := Nat.pos_pow_of_pos _ (by omega)
    nlinarith [htail, hb1]

/-- Byte-wise comparison computes the comparison of big-endian numeric
values, for equal-length arrays of genuine bytes. -/
theorem memcmpOrd_eq_compare :
    ∀ (x y : List Nat), x.length = y.length → (∀ b ∈ x, b < 256) → (∀ b ∈ y, b < 256) →
      memcmpOrd x y = compare (beNat x) (beNat y) := by
  intro x
  induction x with
  | nil =>
    intro y hlen _ _
    cases y with
    | nil => decide
    | cons b ys => simp at hlen
  | cons a xs ih =>
    intro y hlen hx hy
    cases y with
    | nil => simp at hlen
    | cons b ys =>
      have hlen' : xs.length = ys.length := by simpa using hlen
      have hxs : ∀ c ∈ xs, c < 256 := fun c hc => hx c (List.mem_cons_of_mem a hc)
      have hys : ∀ c ∈ ys, c < 256 := fun c hc => hy c (List.mem_cons_of_mem b hc)
      have hxlt : beNat xs < 256 ^ xs.length := beNat_lt_pow xs hxs
      have hylt' : beNat ys < 256 ^ xs.length := by
        rw [hlen']; exact beNat_lt_pow ys hys
      have hpos : 0 < (256 : Nat) ^ xs.length := Nat.pos_pow_of_pos _ (by omega)
      rw [beNat_cons, beNat_cons, ← hlen']
      rcases Nat.lt_trichotomy a b with hab | hab | hab
      · have h1 : (a + 1) * 256 ^ xs.length ≤ b * 256 ^ xs.length :=
          Nat.mul_le_mul_right _ (by omega)
        have hnum : a * 256 ^ xs.length + beNat xs < b * 256 ^ xs.length + beNat ys := by
          nlinarith
        simp only [memcmpOrd, if_pos hab]
        exact (Nat.compare_eq_lt.mpr hnum).symm
      · subst hab
        have hif : memcmpOrd (a :: xs) (a :: ys) = memcmpOrd xs ys := by
          simp [memcmpOrd]
        rw [hif, ih ys hlen' hxs hys]
        rcases Nat.lt_trichotomy (beNat xs) (beNat ys) with hc | hc | hc
        · rw [Nat.compare_eq_lt.mpr hc, Nat.compare_eq_lt.mpr
            (by omega : a * 256 ^ xs.length + beNat xs < a * 256 ^ xs.length + beNat ys)]
        · rw [hc, Nat.compare_eq_eq.mpr rfl, Nat.compare_eq_eq.mpr rfl]
        · rw [Nat.compare_eq_gt.mpr hc, Nat.compare_eq_gt.mpr
            (by omega : a * 256 ^ xs.length + beNat ys < a * 256 ^ xs.length + beNat xs)]
      · have h1 : (b + 1) * 256 ^ xs.length ≤ a * 256 ^ xs.length :=
          Nat.mul_le_mul_right _ (by omega)
        have hnum : b * 256 ^ xs.length + beNat ys < a * 256 ^ xs.length + beNat xs := by
          nlinarith
        have hnab : ¬ a < b := by omega
        simp only [memcmpOrd, if_neg hnab, if_pos hab]
        exact (Nat.compare_eq_gt.mpr hnum).symm

/-- Byte-wise comparison returns `eq` exactly on identical equal-length
arrays. -/
theorem memcmpOrd_eq_iff :
    ∀ (x y : List Nat), x.length = y.length → (memcmpOrd x y = Ordering.eq ↔ x = y) := by
  intro x
  induction x with
  | nil =>
    intro y hlen
    cases y with
    | nil => simp [memcmpOrd]
    | cons b ys => simp at hlen
  | cons a xs ih =>
    intro y hlen
    cases y with
    | nil => simp at hlen
    | cons b ys =>
      have hlen' : xs.length = ys.length := by simpa using hlen
      by_cases hab : a < b
      · simp only [memcmpOrd, if_pos hab]
        constructor
        · intro hc; cases hc
        · intro hc
          have : a = b := by injection hc
          omega
      · by_cases hba : b < a
        · simp only [memcmpOrd, if_neg hab, if_pos hba]
          constructor
          · intro hc; cases hc
          · intro hc
            have : a = b := by injection hc
            omega
        · have : a = b := by omega
          subst this
          simp only [memcmpOrd, if_neg hab, if_neg hba]
          rw [ih ys hlen']
          simp

/-- C6: for equal-width byte-array values (this covers both the 128-bit and
the 256-bit width), exactly one of less / equal / greater holds, and the
big-endian numeric comparison of the spec always agrees with raw byte-wise
unsigned comparison: `memcmpOrd` computes precisely `compare` of the
big-endian numeric values, equality is byte-wise identity, and the three
outcomes are mutually exclusive and exhaustive. -/
theorem C6_numeric_comparison_agrees_with_memcmp (x y : List Nat)
    (hlen : x.length = y.length) (hx : ∀ b ∈ x, b < 256) (hy : ∀ b ∈ y, b < 256) :
    memcmpOrd x y = compare (beNat x) (beNat y) ∧
    (memcmpOrd x y = Ordering.lt ↔ beNat x < beNat y) ∧
    (memcmpOrd x y = Ordering.eq ↔ x = y) ∧
    (memcmpOrd x y = Ordering.gt ↔ beNat y < beNat x) ∧
    (beNat x < beNat y ∨ x = y ∨ beNat y < beNat x) ∧
    ¬ (beNat x < beNat y ∧ x = y) ∧ ¬ (beNat y < beNat x ∧ x = y) ∧
    ¬ (beNat x < beNat y ∧ beNat y < beNat x) := by
  have hcmp := memcmpOrd_eq_compare x y hlen hx hy
  have heq := memcmpOrd_eq_iff x y hlen
  refine ⟨hcmp, ?_, heq, ?_, ?_, ?_, ?_, ?_⟩
  · rw [hcmp]; exact Nat.compare_eq_lt
  · rw [hcmp]; exact Nat.compare_eq_gt
  · rcases Nat.lt_trichotomy (beNat x) (beNat y) with h | h | h
    · exact Or.inl h
    · refine Or.inr (Or.inl ?_)
      rw [← heq, hcmp, Nat.compare_eq_eq.mpr h]
    · exact Or.inr (Or.inr h)
  · rintro ⟨h1, rfl⟩; omega
  · rintro ⟨h1, rfl⟩; omega
  · rintro ⟨h1, h2⟩; omega

/-- Witness for C6 at the repository's own `Int128/works` test values. -/
theorem C6_witness :
    testHash1.length = testHash2.length ∧
    (memcmpOrd testHash1 testHash2 = compare (beNat testHash1) (beNat testHash2) ∧
    (memcmpOrd testHash1 testHash2 = Ordering.lt ↔ beNat testHash1 < beNat testHash2) ∧
    (memcmpOrd testHash1 testHash2 = Ordering.eq ↔ testHash1 = testHash2) ∧
    (memcmpOrd testHash1 testHash2 = Ordering.gt ↔ beNat testHash2 < beNat testHash1) ∧
    (beNat testHash1 < beNat testHash2 ∨ testHash1 = testHash2 ∨
      beNat testHash2 < beNat testHash1) ∧
    ¬ (beNat testHash1 < beNat testHash2 ∧ testHash1 = testHash2) ∧
    ¬ (beNat testHash2 < beNat testHash1 ∧ testHash1 = testHash2) ∧
    ¬ (beNat testHash1 < beNat testHash2 ∧ beNat testHash2 < beNat testHash1)) :=
  ⟨by decide,
   C6_numeric_comparison_agrees_with_memcmp testHash1 testHash2
     (by decide) (by decide) (by decide)⟩

/-- `sizeof(generator_type::result_type)` for the generators the source
instantiates on the reference LP64 platform (`mt19937_64`, 8 bytes). -/
def genWordSize : Nat := 8

/-- The trailing remainder loop of `FillRandom` from `Int128_256.cpp`:
`for(remaining=length-(thislength*partitions); remaining>0;
remaining-=sizeof(generator_type::result_type))` writes one full generator
word per iteration; the loop counter is a `size_t`, so the decrement wraps
modulo `2 ^ 64`. The result counts the words written, `none` when the loop
is still running after `fuel` iterations. -/
def remainderWrites (fuel r : Nat) : Option Nat :=
  if r = 0 then some 0
  else match fuel with
    | 0 => none
    | f + 1 => (remainderWrites f ((r + (SZ - genWordSize)) % SZ)).map (fun k => k + 1)

/-- `FillRandom<generator_type>` from `Int128_256.cpp` with `partitions = 1`
(the OpenMP path is disabled in the source): `thislength` rounds `length`
down to a word multiple, `thisno` words are written into the buffer, and the
trailing loop writes further whole words for any remainder. The generator is
embedded as the stream `gen` of its successive outputs; the result is the
list of words written, `none` when the remainder loop is still running after
`fuel` iterations. -/
def FillRandom (gen : Nat → Nat) (length fuel : Nat) : Option (List Nat) :=
  let thislength := length - length % genWordSize
  let thisno := thislength / genWordSize
  match remainderWrites fuel (length - thislength) with
  | some k => some ((List.range (thisno + k)).map gen)
  | none => none

/-- Outcome of the `Int128`/`Int256` fill entry points: `aborted` models the
`abort()` call, `filled` carries the generator words written. -/
inductive FillOutcome where
  | aborted : FillOutcome
  | filled : List Nat → FillOutcome
  | fuelOut : FillOutcome
deriving DecidableEq

/-- `Int128::FillQualityRandom` from `Int128_256.cpp`: computes
`length = no * sizeof(Int128)` in `size_t` arithmetic, aborts when `no` is
nonzero and `no != length / sizeof(Int128)` (the multiplication overflowed),
and otherwise runs `FillRandom` with the Mersenne generator stream. -/
def Int128.FillQualityRandom (gen : Nat → Nat) (no fuel : Nat) : FillOutcome :=
  let length := no * 16 % SZ
  if no ≠ 0 ∧ no ≠ length / 16 then FillOutcome.aborted
  else match FillRandom gen length fuel with
    | some ws => FillOutcome.filled ws
    | none => FillOutcome.fuelOut

/-- `Int128::FillFastRandom` from `Int128_256.cpp`: its first statement
calls `FillQualityRandom` and the second is `return`, so the ranlux-based
`FillRandom` call below the `return` is dead code; the ranlux generator
stream `ranluxGen` is therefore never consulted. -/
def Int128.FillFastRandom (gen ranluxGen : Nat → Nat) (no fuel : Nat) : FillOutcome :=
  Int128.FillQualityRandom gen no fuel

/-- `Int256::FillQualityRandom` from `Int128_256.cpp`, as for `Int128` but
with `sizeof(Int256) = 32`. -/
def Int256.FillQualityRandom (gen : Nat → Nat) (no fuel : Nat) : FillOutcome :=
  let length := no * 32 % SZ
  if no ≠ 0 ∧ no ≠ length / 32 then FillOutcome.aborted
  else match FillRandom gen length fuel with
    | some ws => FillOutcome.filled ws
    | none => FillOutcome.fuelOut

/-- `Int256::FillFastRandom` from `Int128_256.cpp`: delegates to
`FillQualityRandom` and returns; the ranlux-based path below the `return` is
dead code. -/
def Int256.FillFastRandom (gen ranluxGen : Nat → Nat) (no fuel : Nat) : FillOutcome :=
  Int256.FillQualityRandom gen no fuel

theorem remainderWrites_zero (fuel : Nat) : remainderWrites fuel 0 = some 0 := by
  cases fuel <;> simp [remainderWrites]

/-- The remainder loop never terminates on a remainder that is not a word
multiple: the `size_t` decrement preserves the residue modulo the word size
and can never reach zero. -/
theorem remainderWrites_none (fuel : Nat) :
    ∀ r, r % genWordSize ≠ 0 → r < SZ → remainderWrites fuel r = none := by
  induction fuel with
  | zero =>
    intro r h8 _
    have hr0 : r ≠ 0 := by
      intro hc
      rw [hc] at h8
      simp at h8
    simp [remainderWrites, hr0]
  | succ f ih =>
    intro r h8 hlt
    have hr0 : r ≠ 0 := by
      intro hc
      rw [hc] at h8
      simp at h8
    have h8' : (r + (SZ - genWordSize)) % SZ % genWordSize ≠ 0 := by
      simp only [SZ, genWordSize] at h8 hlt ⊢
      omega
    have hlt' : (r + (SZ - genWordSize)) % SZ < SZ := Nat.mod_lt _ (by simp [SZ])
    simp only [remainderWrites, if_neg hr0]
    rw [ih _ h8' hlt']
    rfl

/-- C8 counterexample: a 1-byte destination buffer is not a multiple of the
generator word size, yet the fill does not abort: the only `abort()` sits in
the `Fill*Random` entry points guarding the `no * sizeof` overflow, while
`FillRandom`'s remainder loop simply keeps writing whole words (here it is
still running after 200 iterations; by `remainderWrites_none` it never
stops). -/
theorem C8_counterexample_no_abort_on_misaligned_length :
    1 % genWordSize ≠ 0 ∧
    remainderWrites 200 1 = none ∧
    FillRandom (fun _ => 0) 1 200 = none ∧
    Int256.FillQualityRandom (fun _ => 0) 1 5 ≠ FillOutcome.aborted := by
  refine ⟨by decide, by decide, by decide, by decide⟩

/-- C8 as amended: for a buffer length that is an exact word multiple —
which is the only kind the `Int128`/`Int256` entry points ever produce —
the fill writes exactly `length / genWordSize` generator words, covering the
whole buffer in native-word-sized chunks; for any other length it does not
abort but runs the remainder loop forever, writing whole generator words
past the buffer. -/
theorem C8_fill_covers_word_multiples_and_diverges_otherwise
    (gen : Nat → Nat) (length fuel : Nat) :
    (length % genWordSize = 0 →
      FillRandom gen length fuel = some ((List.range (length / genWordSize)).map gen)) ∧
    (length % genWordSize ≠ 0 → FillRandom gen length fuel = none) := by
  constructor
  · intro h
    simp only [FillRandom, h, Nat.sub_zero, Nat.sub_self, remainderWrites_zero,
      Nat.add_zero]
  · intro h
    have hsub : length - (length - length % genWordSize) = length % genWordSize :=
      Nat.sub_sub_self (Nat.mod_le _ _)
    have h8 : length % genWordSize % genWordSize ≠ 0 := by
      simp only [genWordSize] at h ⊢
      omega
    have hlt : length % genWordSize < SZ := by
      simp only [genWordSize, SZ]
      omega
    simp only [FillRandom, hsub]
    rw [remainderWrites_none fuel _ h8 hlt]

/-- Witness for C8's amended statement at a word-multiple and a misaligned
length. -/
theorem C8_witness :
    (16 % genWordSize = 0 ∧
      FillRandom (fun n => n) 16 3 = some ((List.range (16 / genWordSize)).map (fun n => n))) ∧
    (1 % genWordSize ≠ 0 ∧ FillRandom (fun n => n) 1 3 = none) :=
  ⟨⟨by decide, (C8_fill_covers_word_multiples_and_diverges_otherwise (fun n => n) 16 3).1
      (by decide)⟩,
   ⟨by decide, (C8_fill_covers_word_multiples_and_diverges_otherwise (fun n => n) 1 3).2
      (by decide)⟩⟩

/-- C10: both `FillFastRandom` entry points perform exactly the computation
of `FillQualityRandom` on the same arguments, for every Mersenne generator
stream, every ranlux generator stream, every count and every fuel: the
ranlux-based path after the early `return` is unreachable. -/
theorem C10_fill_fast_equals_fill_quality
    (gen ranluxGen : Nat → Nat) (no fuel : Nat) :
    Int128.FillFastRandom gen ranluxGen no fuel = Int128.FillQualityRandom gen no fuel ∧
    Int256.FillFastRandom gen ranluxGen no fuel = Int256.FillQualityRandom gen no fuel :=
  ⟨rfl, rfl⟩

/-- Modelled from the spec: the two external fast hash algorithms.
`SpookyHash::Hash128` takes its two 64-bit words as in-out parameters (seed
on entry, result on exit) and `CityHash128WithSeed` takes a 128-bit seed and
returns a 128-bit result. Their sources (`SpookyV2.cpp`, `city.cc`) are not
among the sources at hand, so they are abstracted as arbitrary functions
from a byte buffer and a seed pair to a result pair. -/
structure ExtHash where
  spooky : List Nat → Nat × Nat → Nat × Nat
  city : List Nat → Nat × Nat → Nat × Nat

/-- `Hash128::AddFastHashTo` from `Int128_256.cpp`: passes pointers to the
destination's own two 64-bit words to `SpookyHash::Hash128`, so the hash is
seeded with the destination's current contents and the result replaces
them. -/
def Hash128.AddFastHashTo (H : ExtHash) (st : Nat × Nat) (data : List Nat) : Nat × Nat :=
  H.spooky data st

/-- `Hash256::AddFastHashTo` from `Int128_256.cpp`: the lower two 64-bit
words are passed in-place to `SpookyHash::Hash128` (seed and result), the
upper two words are read as the `CityHash128WithSeed` seed before the loop
and overwritten with its result after. -/
def Hash256.AddFastHashTo (H : ExtHash) (st : (Nat × Nat) × (Nat × Nat)) (data : List Nat) :
    (Nat × Nat) × (Nat × Nat) :=
  (H.spooky data st.1, H.city data st.2)

/-- A concrete instantiation of the external hash functions, used only to
witness C9 at concrete inputs. -/
def exampleExtHash : ExtHash where
  spooky := fun data s => (s.1 + data.length + 1, s.2)
  city := fun data s => (s.2, s.1 + data.length + 1)

/-- C9: the fast-hash operations are stateful accumulators. The result of
`Hash128.AddFastHashTo` is the external hash applied to the destination's
prior two 64-bit words as seed; `Hash256.AddFastHashTo` seeds SpookyHash
with the prior lower half and CityHash with the prior upper half. Hence the
result differs across prior contents whenever the external hash
distinguishes the two seeds, and two successive calls over the same bytes
leave a different value than a single call on a fresh all-zero destination
whenever the external hash does not fix its own output at the zero seed. -/
theorem C9_fast_hash_seeds_from_destination (H : ExtHash) (data : List Nat)
    (s s' : Nat × Nat) (t : (Nat × Nat) × (Nat × Nat))
    (hseed : H.spooky data s ≠ H.spooky data s')
    (hiter : H.spooky data (H.spooky data (0, 0)) ≠ H.spooky data (0, 0)) :
    Hash128.AddFastHashTo H s data = H.spooky data s ∧
    Hash256.AddFastHashTo H t data = (H.spooky data t.1, H.city data t.2) ∧
    Hash128.AddFastHashTo H s data ≠ Hash128.AddFastHashTo H s' data ∧
    Hash128.AddFastHashTo H (Hash128.AddFastHashTo H (0, 0) data) data ≠
      Hash128.AddFastHashTo H (0, 0) data :=
  ⟨rfl, rfl, hseed, hiter⟩

/-- Witness for C9 with a concrete external hash, concrete seeds and a
concrete buffer. -/
theorem C9_witness :
    Hash128.AddFastHashTo exampleExtHash (0, 0) [7, 7] =
      exampleExtHash.spooky [7, 7] (0, 0) ∧
    Hash256.AddFastHashTo exampleExtHash ((0, 0), (3, 4)) [7, 7] =
      (exampleExtHash.spooky [7, 7] (0, 0), exampleExtHash.city [7, 7] (3, 4)) ∧
    Hash128.AddFastHashTo exampleExtHash (0, 0) [7, 7] ≠
      Hash128.AddFastHashTo exampleExtHash (5, 0) [7, 7] ∧
    Hash128.AddFastHashTo exampleExtHash
        (Hash128.AddFastHashTo exampleExtHash (0, 0) [7, 7]) [7, 7] ≠
      Hash128.AddFastHashTo exampleExtHash (0, 0) [7, 7] :=
  C9_fast_hash_seeds_from_destination exampleExtHash [7, 7] (0, 0) (5, 0)
    ((0, 0), (3, 4)) (by decide) (by decide)

/-- One lane slot of `Hash256::BatchAddSHA256To`: the message index the
lane's `blks`/`out` pointers refer to, the byte offset of the advancing
block pointer `blks[n]`, and the remaining length `lengths[n]`. -/
structure Lane where
  idx : Nat
  off : Nat
  rem : Nat
deriving DecidableEq

/-- The state of `Hash256::BatchAddSHA256To`'s main loop: the four lane
slots (`none` models a null `blks[n]`), the position of the advancing
`data`/`hashs`/`length` input pointers, the `size_t` count register `no`,
the `tobefinished` vector of retired short tails, the destination digest
states, and the `done` flag. -/
structure BatchState where
  slots : List (Option Lane)
  next : Nat
  no : Nat
  tobefinished : List Lane
  dests : List (List Nat)
  done : Bool
deriving DecidableEq

/-- The retirement check at slot `n`: a non-null lane whose remaining
length is below one block is pushed onto `tobefinished` when the remainder
is nonzero, and the slot is cleared. The second component is the for-loop
break flag (never set here). -/
def retireCheck (s : BatchState) (n : Nat) : BatchState × Bool :=
  match s.slots.getD n none with
  | some lane =>
      if lane.rem < 64 then
        (if lane.rem ≠ 0 then
          { s with tobefinished := s.tobefinished ++ [lane],
                   slots := s.slots.set n none }
         else { s with slots := s.slots.set n none }, false)
      else (s, false)
  | none => (s, false)

/-- The body of the refill for-loop at slot `n` in
`Hash256::BatchAddSHA256To`: an empty slot is refilled from the next
message while `no` is nonzero, `no` is pre-decremented in `size_t`
arithmetic, and only if the decremented `no` equals `(size_t)-1` are `done`
set and the loop broken; in every case the retirement check then runs on
the slot. -/
def fillSlot (msgs : List (List Nat)) (s : BatchState) (n : Nat) : BatchState × Bool :=
  if (s.slots.getD n none) = none ∧ s.no ≠ 0 then
    (if (s.no + (SZ - 1)) % SZ = SZ - 1 then
      ({ s with slots := s.slots.set n (some ⟨s.next, 0, (msgs.getD s.next []).length⟩),
                next := s.next + 1, no := (s.no + (SZ - 1)) % SZ, done := true }, true)
     else retireCheck
        { s with slots := s.slots.set n (some ⟨s.next, 0, (msgs.getD s.next []).length⟩),
                 next := s.next + 1, no := (s.no + (SZ - 1)) % SZ } n)
  else retireCheck s n

/-- The refill for-loop over the slots in `ns` (the source iterates
`n = 0, 1, 2, 3`), honouring the break flag. -/
def fillLoop (msgs : List (List Nat)) : List Nat → BatchState → BatchState
  | [], s => s
  | n :: ns, s =>
      if (fillSlot msgs s n).2 then (fillSlot msgs s n).1
      else fillLoop msgs ns (fillSlot msgs s n).1

/-- The per-slot condition of the source's debug assertions: `blks[n]` is
non-null and `lengths[n]` holds at least one full block. -/
def laneReady : Option Lane → Bool
  | some lane => decide (64 ≤ lane.rem)
  | none => false

/-- All four assertions before the 4-wide compression step. -/
def assertOK (s : BatchState) : Bool :=
  (List.range 4).all (fun n => laneReady (s.slots.getD n none))

/-- The current 64-byte block of a lane. -/
def laneBlock (msgs : List (List Nat)) (lane : Lane) : List Nat :=
  ((msgs.getD lane.idx []).drop lane.off).take 64

/-- One lane of `__sha256_int`: folds the lane's current block into its
destination state. The interleaved 4-wide routine advances each lane's
running state by exactly one block, per the spec. -/
def compressStep (msgs : List (List Nat)) (s : BatchState) (n : Nat) : BatchState :=
  match s.slots.getD n none with
  | some lane =>
      { s with dests :=
          s.dests.set lane.idx (sha256_osol (laneBlock msgs lane) (s.dests.getD lane.idx [])) }
  | none => s

/-- The pointer-advance loop after `__sha256_int`: `blks[n]++` and
`lengths[n] -= 64` in `size_t` arithmetic. -/
def advanceStep (s : BatchState) (n : Nat) : BatchState :=
  match s.slots.getD n none with
  | some lane =>
      { s with slots :=
          s.slots.set n (some ⟨lane.idx, lane.off + 64, (lane.rem + (SZ - 64)) % SZ⟩) }
  | none => s

/-- Result of one iteration of the `while(!done)` loop. -/
inductive StepRes where
  | cont : BatchState → StepRes
  | exitLoop : BatchState → StepRes
  | crashed : StepRes

/-- One iteration of the `while(!done)` loop of
`Hash256::BatchAddSHA256To`: refill and retire the four slots, exit if
`done` was set, otherwise check the four assertions (`crashed` models the
debug-mode assertion failure, which in release mode is a null-pointer
dereference inside `__sha256_int`), then run the 4-wide compression and
advance every lane. -/
def whileBody (msgs : List (List Nat)) (s : BatchState) : StepRes :=
  if (fillLoop msgs [0, 1, 2, 3] s).done then StepRes.exitLoop (fillLoop msgs [0, 1, 2, 3] s)
  else if assertOK (fillLoop msgs [0, 1, 2, 3] s) then
    StepRes.cont (List.foldl advanceStep
      (List.foldl (compressStep msgs) (fillLoop msgs [0, 1, 2, 3] s) [0, 1, 2, 3])
      [0, 1, 2, 3])
  else StepRes.crashed

/-- The deferred finishing pass over `tobefinished`: each retired tail is
zero-padded to one block and folded into its destination by
`__sha256_osol`. -/
def finishTobefinished (msgs : List (List Nat)) (s : BatchState) : List (List Nat) :=
  s.tobefinished.foldl (fun dests lane =>
    dests.set lane.idx (sha256_osol
      (((msgs.getD lane.idx []).drop lane.off).take lane.rem ++
        List.replicate (64 - lane.rem) 0)
      (dests.getD lane.idx []))) s.dests

/-- Overall outcome of `Hash256::BatchAddSHA256To`. -/
inductive BatchResult where
  | finished : List (List Nat) → BatchResult
  | assertFailed : BatchResult
  | fuelOut : BatchResult
deriving DecidableEq

/-- The `while(!done)` loop, run with fuel. -/
def batchLoop (msgs : List (List Nat)) : Nat → BatchState → BatchResult
  | 0, _ => BatchResult.fuelOut
  | fuel + 1, s =>
      match whileBody msgs s with
      | StepRes.exitLoop s1 => BatchResult.finished (finishTobefinished msgs s1)
      | StepRes.crashed => BatchResult.assertFailed
      | StepRes.cont s1 => batchLoop msgs fuel s1

/-- `Hash256::BatchAddSHA256To` from `Int128_256.cpp`: `no` messages,
destination states `inits`, message byte buffers `msgs`; the loop starts
with four null slots, input pointers at position zero, the `size_t` count
register, an empty `tobefinished` vector and `done = false`. -/
def Hash256.BatchAddSHA256To (no : Nat) (inits : List (List Nat))
    (msgs : List (List Nat)) (fuel : Nat) : BatchResult :=
  batchLoop msgs fuel ⟨[none, none, none, none], 0, no % SZ, [], inits, false⟩

/-- Whether a batch outcome is a normal completion. -/
def BatchResult.isFinished : BatchResult → Bool
  | BatchResult.finished _ => true
  | _ => false

theorem retireCheck_inv (s : BatchState) (n : Nat) :
    (retireCheck s n).1.done = s.done ∧ (retireCheck s n).1.no = s.no ∧
      (retireCheck s n).2 = false := by
  unfold retireCheck
  cases h : s.slots.getD n none with
  | none => exact ⟨rfl, rfl, rfl⟩
  | some lane =>
    by_cases h64 : lane.rem < 64
    · by_cases h0 : lane.rem ≠ 0 <;> simp [h64, h0]
    · simp [h64]

theorem fillSlot_inv (msgs : List (List Nat)) (s : BatchState) (n : Nat) (h : s.no < SZ) :
    (fillSlot msgs s n).1.done = s.done ∧ (fillSlot msgs s n).1.no < SZ ∧
      (fillSlot msgs s n).2 = false := by
  unfold fillSlot
  by_cases hc : (s.slots.getD n none) = none ∧ s.no ≠ 0
  · have hno : (s.no + (SZ - 1)) % SZ = s.no - 1 := by
      have h0 := hc.2
      simp only [SZ] at h ⊢
      omega
    have hne : ¬ ((s.no + (SZ - 1)) % SZ = SZ - 1) := by
      have h0 := hc.2
      simp only [SZ] at h ⊢
      omega
    rw [if_pos hc, if_neg hne]
    refine ⟨(retireCheck_inv _ _).1, ?_, (retireCheck_inv _ _).2.2⟩
    rw [(retireCheck_inv _ _).2.1]
    show (s.no + (SZ - 1)) % SZ < SZ
    exact Nat.mod_lt _ (by simp [SZ])
  · rw [if_neg hc]
    refine ⟨(retireCheck_inv _ _).1, ?_, (retireCheck_inv _ _).2.2⟩
    rw [(retireCheck_inv _ _).2.1]
    exact h

theorem fillLoop_inv (msgs : List (List Nat)) (ns : List Nat) :
    ∀ s : BatchState, s.no < SZ →
      (fillLoop msgs ns s).done = s.done ∧ (fillLoop msgs ns s).no < SZ := by
  induction ns with
  | nil => intro s h; exact ⟨rfl, h⟩
  | cons n ns ih =>
    intro s h
    obtain ⟨hd, hn, hb⟩ := fillSlot_inv msgs s n h
    simp only [fillLoop, hb, if_false, Bool.false_eq_true]
    obtain ⟨hd2, hn2⟩ := ih _ hn
    exact ⟨hd2.trans hd, hn2⟩

theorem foldl_preserves_done_no {f : BatchState → Nat → BatchState}
    (hf : ∀ s n, (f s n).done = s.done ∧ (f s n).no = s.no) (ns : List Nat) :
    ∀ s : BatchState, (List.foldl f s ns).done = s.done ∧ (List.foldl f s ns).no = s.no := by
  induction ns with
  | nil => intro s; exact ⟨rfl, rfl⟩
  | cons n ns ih =>
    intro s
    obtain ⟨h1, h2⟩ := ih (f s n)
    obtain ⟨h3, h4⟩ := hf s n
    simp only [List.foldl_cons]
    exact ⟨h1.trans h3, h2.trans h4⟩

theorem compressStep_inv (msgs : List (List Nat)) (s : BatchState) (n : Nat) :
    (compressStep msgs s n).done = s.done ∧ (compressStep msgs s n).no = s.no := by
  unfold compressStep
  cases h : s.slots.getD n none <;> simp

theorem advanceStep_inv (s : BatchState) (n : Nat) :
    (advanceStep s n).done = s.done ∧ (advanceStep s n).no = s.no := by
  unfold advanceStep
  cases h : s.slots.getD n none <;> simp

theorem whileBody_no_exit (msgs : List (List Nat)) (s : BatchState)
    (h : s.no < SZ) (hd : s.done = false) :
    (∀ s1, whileBody msgs s ≠ StepRes.exitLoop s1) ∧
    (∀ s1, whileBody msgs s = StepRes.cont s1 → s1.no < SZ ∧ s1.done = false) := by
  obtain ⟨h1, h2⟩ := fillLoop_inv msgs [0, 1, 2, 3] s h
  have hdone : (fillLoop msgs [0, 1, 2, 3] s).done = false := h1.trans hd
  constructor
  · intro s1 hcontra
    by_cases ha : assertOK (fillLoop msgs [0, 1, 2, 3] s) <;>
      simp [whileBody, hdone, ha] at hcontra
  · intro s1 hcont
    by_cases ha : assertOK (fillLoop msgs [0, 1, 2, 3] s)
    · simp only [whileBody, hdone, Bool.false_eq_true, if_false, ha, if_true] at hcont
      obtain ⟨ha1, ha2⟩ := foldl_preserves_done_no advanceStep_inv [0, 1, 2, 3]
        (List.foldl (compressStep msgs) (fillLoop msgs [0, 1, 2, 3] s) [0, 1, 2, 3])
      obtain ⟨hc1, hc2⟩ := foldl_preserves_done_no (compressStep_inv msgs) [0, 1, 2, 3]
        (fillLoop msgs [0, 1, 2, 3] s)
      cases hcont
      constructor
      · rw [ha2, hc2]; exact h2
      · rw [ha1, hc1]; exact hdone
    · simp [whileBody, hdone, ha] at hcont

/-- The main loop never reaches a normal exit: `done` can be set only when
the pre-decremented `size_t` count equals `(size_t)-1`, which the refill
guard `no != 0` makes impossible. -/
theorem batchLoop_never_finishes (msgs : List (List Nat)) :
    ∀ (fuel : Nat) (s : BatchState), s.no < SZ → s.done = false →
      (batchLoop msgs fuel s).isFinished = false := by
  intro fuel
  induction fuel with
  | zero => intro s _ _; rfl
  | succ f ih =>
    intro s h hd
    obtain ⟨hne, hcont⟩ := whileBody_no_exit msgs s h hd
    unfold batchLoop
    cases hw : whileBody msgs s with
    | exitLoop s1 => exact absurd hw (hne s1)
    | crashed => rfl
    | cont s1 =>
      obtain ⟨h1, h2⟩ := hcont s1 hw
      exact ih s1 h1 h2

/-- C2: the 4-wide phase never stops: for every message count, destination
list, message list and any number of loop iterations, `BatchAddSHA256To`
never returns normally — when the input is exhausted the loop does not
terminate but runs into its own assertions (debug) or a null-pointer
dereference (release), because the `done` flag is unreachable under the
refill guard. The deferred finishing path is therefore never reached. -/
theorem C2_batch_loop_never_stops (no : Nat) (inits msgs : List (List Nat)) (fuel : Nat) :
    (Hash256.BatchAddSHA256To no inits msgs fuel).isFinished = false := by
  unfold Hash256.BatchAddSHA256To
  exact batchLoop_never_finishes msgs fuel _ (Nat.mod_lt _ (by simp [SZ])) rfl

/-- A 10-byte test message for the batch runs. -/
def batchMsgA : List Nat := List.replicate 10 1

/-- A 70-byte test message (one full block plus a 6-byte tail). -/
def batchMsgB : List Nat := List.replicate 70 2

/-- A 5-byte test message. -/
def batchMsgD : List Nat := List.replicate 5 3

/-- C1: evaluated on a singleton batch and on a 4-message batch of
independent lengths (10, 70, 0 and 5 bytes), `BatchAddSHA256To` hits its
assertion failure instead of producing digests, so its destination 0 does
not equal `AddSHA256To` on the same bytes: after the input list is
exhausted, the unreachable `done` flag leaves the loop running with empty
lane slots. -/
theorem C1_batch_differs_from_single :
    Hash256.BatchAddSHA256To 1 [zeroState256] [batchMsgA] 5 = BatchResult.assertFailed ∧
    Hash256.BatchAddSHA256To 1 [zeroState256] [batchMsgA] 5 ≠
      BatchResult.finished [Hash256.AddSHA256To zeroState256 batchMsgA] ∧
    Hash256.BatchAddSHA256To 4 [zeroState256, zeroState256, zeroState256, zeroState256]
      [batchMsgA, batchMsgB, [], batchMsgD] 5 = BatchResult.assertFailed := by
  refine ⟨by decide, by decide, by decide⟩
